import Mathlib

/-!
Verification of the mass and statistics core of the pyproteome repository.

This file gives a shallow embedding of the two subsystems the specification
puts in scope:

* `pycamv/fragments.py` - peptide fragment ion generation (internal
  fragments, b/y ions with neutral losses, parent ions);
* `pyproteome/motifs/logo.py` - position-wise hypergeometric/binomial
  enrichment scores with a Bonferroni-style significance cutoff.

Peptide sequences are lists of `(letter, modifications)` pairs, exactly as in
the Python code.  Masses are embedded exactly (the modelled tables are integral, so fragment masses live in the integers; m over z values and probabilities are exact rationals); scores, which the
code produces with `np.log10`, are embedded as real numbers via `Real.logb`.
Python dictionaries keyed by ion name are embedded as association lists in
write order with a last-write-wins lookup.
-/

/-- Errors raised by the embedded Python code. -/
inductive PyErr
  | assertionError
  | indexError
  | typeError
  | attributeError
  deriving DecidableEq, Repr

/-- Modelled from the spec: the repository's `pycamv.masses` module (the
"static lookup of amino-acid, modification, and neutral-loss masses") is not
under `src/`; only `pycamv/fragments.py`, which imports it, is.  We model
`masses.AMINO_ACIDS` as a static table with representative integer Dalton
masses; only the values' identities matter for the claims settled here. -/
def AMINO_ACIDS (letter : String) : ℤ :=
  if letter = "N-term" then 1
  else if letter = "C-term" then 17
  else if letter = "A" then 71
  else if letter = "G" then 57
  else if letter = "M" then 131
  else if letter = "P" then 97
  else if letter = "S" then 87
  else if letter = "T" then 101
  else if letter = "Y" then 163
  else 0

/-- Modelled from the spec: `masses.MODIFICATIONS`, mapping a residue letter
paired with an optional modification name to the modification's mass shift.
An unmodified residue has shift 0. -/
def MODIFICATIONS : String × Option String → ℤ
  | (_, none) => 0
  | (letter, some m) =>
    if m = "Phospho" ∧ (letter = "S" ∨ letter = "T" ∨ letter = "Y") then 80
    else if m = "Oxidation" ∧ letter = "M" then 16
    else if m = "Dioxidation" ∧ letter = "M" then 32
    else 0

/-- Modelled from the spec: `masses.MASSES`, the neutral-loss mass table. -/
def MASSES (loss : String) : ℤ :=
  if loss = "H_2O" then 18
  else if loss = "NH_3" then 17
  else if loss = "CO" then 28
  else if loss = "H_3PO_4" then 98
  else if loss = "HPO_3" then 80
  else if loss = "HPO_3-H_2O" then 98
  else if loss = "SOCH_4" then 64
  else if loss = "SO_2CH_4" then 80
  else 0

/-- Modelled from the spec: `masses.PROTON`, the proton mass. -/
def PROTON : ℚ := 1007276 / 1000000

/-- A peptide sequence entry: a residue letter with its modification list. -/
abbrev Residue := String × List String

/-- Mass contributed by one residue: the amino-acid mass plus the mass of its
first modification (`mods[0] if mods else None` in the source). -/
def residue_mass (p : Residue) : ℤ :=
  AMINO_ACIDS p.1 + MODIFICATIONS (p.1, p.2.head?)

/-- Embeds `_sequence_mass` (fragments.py lines 13-18). -/
def sequence_mass (pep_seq : List Residue) : ℤ :=
  (pep_seq.map residue_mass).sum

/-- Embeds `_sequence_name` (fragments.py lines 21-26). -/
def sequence_name (pep_seq : List Residue) : String :=
  String.join ((pep_seq.filter
    (fun p => ¬ (p.1 = "N-term" ∨ p.1 = "C-term"))).map (·.1))

/-- The terminal-stripping comprehension of fragments.py lines 66-70. -/
def strip_terms (pep_seq : List Residue) : List Residue :=
  pep_seq.filter (fun p => ¬ (p.1 = "N-term" ∨ p.1 = "C-term"))

/-- Python's `range(a, b)` as an ascending list. -/
def pyRange (a b : ℕ) : List ℕ :=
  (List.range b).filter (fun i => a ≤ i)

/-- The pairs `(start, end)` enumerated by the nested loops of
`internal_fragment_ions` (fragments.py lines 74-75). -/
def internalPairs (L : ℕ) : List (ℕ × ℕ) :=
  (pyRange 2 L).flatMap (fun s => (pyRange (s + 1) L).map (fun e => (s, e)))

/-- Python's slice `l[s:e]`. -/
def pySlice (l : List α) (s e : ℕ) : List α :=
  (l.drop s).take (e - s)

/-- Default `aa_losses` of `internal_fragment_ions` (lines 50-55). -/
def aaLossesDefault : List String := ["H_2O", "NH_3", "CO"]

/-- Default `mod_losses` of `internal_fragment_ions` (lines 57-64), in the
dictionary's insertion order. -/
def modLossesDefault : List ((String × String) × List String) :=
  [(("M", "Oxidation"), ["SOCH_4"]),
   (("M", "Dioxidation"), ["SO_2CH_4"]),
   (("S", "Phospho"), ["H_3PO_4"]),
   (("T", "Phospho"), ["H_3PO_4"]),
   (("Y", "Phospho"), ["HPO_3", "HPO_3-H_2O"])]

/-- The `any(letter == l and mod in mods for l, mods in fragment)` test of
fragments.py lines 90-93. -/
def carries (fragment : List Residue) (lm : String × String) : Bool :=
  fragment.any (fun p => p.1 = lm.1 ∧ lm.2 ∈ p.2)

/-- The dictionary entries written by one iteration of the fragment loop of
`internal_fragment_ions` (fragments.py lines 76-97), in write order: the base
entry, then one entry per amino-acid loss, then the mod-specific loss
entries. -/
def frag_block (stripped : List Residue)
    (aa_losses : List String) (mod_losses : List ((String × String) × List String))
    (se : ℕ × ℕ) : List (String × ℤ) :=
  let fragment : List Residue := ("N-term", []) :: pySlice stripped se.1 se.2
  let mass := sequence_mass fragment
  let name := sequence_name fragment
  (name, mass) ::
    (aa_losses.map (fun loss => (name ++ loss, mass - MASSES loss)) ++
      mod_losses.flatMap (fun lm =>
        if carries fragment lm.1 then
          lm.2.map (fun loss => (name ++ loss, mass - MASSES loss))
        else []))

/-- Embeds `internal_fragment_ions` (fragments.py lines 29-99) as the list of
dictionary writes in order; the resulting dict is read with `dict_get`. -/
def internal_fragment_ions (pep_seq : List Residue)
    (aa_losses : List String)
    (mod_losses : List ((String × String) × List String)) : List (String × ℤ) :=
  let stripped := strip_terms pep_seq
  (internalPairs stripped.length).flatMap (frag_block stripped aa_losses mod_losses)

/-- Lookup in a Python dict built by writing the entries in list order:
a later write to the same key overwrites an earlier one. -/
def dict_get (entries : List (String × ℤ)) (k : String) : Option ℤ :=
  entries.foldl (fun acc pr => if pr.1 = k then some pr.2 else acc) none

/-- Number of entries written under a given key. -/
def keyCount (entries : List (String × ℤ)) (k : String) : ℕ :=
  (entries.filter (fun pr => pr.1 = k)).length

/-- The N-terminus mass used by the claims: the mass-table entry for the
prepended unmodified `("N-term", [])` residue. -/
def NTERM_MASS : ℤ := AMINO_ACIDS "N-term" + MODIFICATIONS ("N-term", none)

/-- The claim's formula for an internal fragment's base m/z: the N-terminus
mass plus, for every residue of the fragment, the amino-acid mass plus the
mass of its first modification (or of the unmodified residue when it carries
none). -/
def claim_frag_mass (frag : List Residue) : ℤ :=
  NTERM_MASS + (frag.map (fun p => AMINO_ACIDS p.1 + MODIFICATIONS (p.1, p.2.head?))).sum

/-- A dynamically typed Python value: `_charged_m_zs` receives its `name` and
`mass` arguments in either order at the two call sites of fragments.py. -/
inductive PyVal
  | str : String → PyVal
  | num : ℚ → PyVal

/-- The superscript charge annotation built at fragments.py lines 115-118
(`^\x7b+\x7d` for charge 1, `^\x7b+c\x7d` for higher charges; the braces are
backslash-escaped in the Python format strings). -/
def py_format_sup (charge : ℕ) : String :=
  if 1 < charge then "^\\\x7b+" ++ toString charge ++ "\\\x7d"
  else "^\\\x7b+\\\x7d"

/-- One named charged ion from `_charged_m_zs` (fragments.py lines 109-122):
the charge annotation is inserted after the first dash-separated component of
the name, and the m/z is `(mass + charge * PROTON) / charge`. -/
def ion_entry (name : String) (mass : ℚ) (charge : ℕ) : String × ℚ :=
  let parts := name.splitOn "-"
  (parts.headI ++ py_format_sup charge ++ String.intercalate "-" parts.tail,
    (mass + charge * PROTON) / charge)

/-- Embeds `_charged_m_zs` (fragments.py lines 109-122) with Python's dynamic
typing: `name.split` is called first, so a numeric `name` raises
AttributeError; a string `mass` then raises TypeError in the arithmetic. -/
def charged_m_zs (name mass : PyVal) (max_charge : ℕ) :
    Except PyErr (List (String × ℚ)) :=
  match name, mass with
  | .str s, .num m => .ok ((List.range max_charge).map (fun i => ion_entry s m (i + 1)))
  | .str _, .str _ => .error .typeError
  | .num _, _ => .error .attributeError

/-- Embeds `_parent_ions` (fragments.py lines 251-255).  The source passes
`(parent_mass, "MH", parent_max_charge)` to `_charged_m_zs`, whose parameters
are `(name, mass, max_charge)`: the numeric total mass arrives in the `name`
position. -/
def parent_ions (frag_masses : List ℚ) (parent_max_charge : ℕ) :
    Except PyErr (List (String × ℚ)) :=
  charged_m_zs (.num frag_masses.sum) (.str "MH") parent_max_charge

/-- Embeds `fragment_ions` (fragments.py lines 271-365) up to its first
effect.  After the two terminal asserts (lines 300-301), the default-argument
setup and the pure `_get_frag_masses` table lookups, line 334 calls
`_b_y_ions(pep_seq, frag_masses, fragment_max_charge, mod_losses)` - four
positional arguments for a function declared on line 125 with six required
parameters (`any_losses` and `aa_losses` are never supplied), so every call
raises TypeError before any ion is produced.  An empty `pep_seq` raises
IndexError at the subscript in the first assert. -/
def fragment_ions (pep_seq : List Residue) (charge : ℕ) : Except PyErr Unit :=
  match pep_seq.head?, pep_seq.getLast? with
  | none, _ => .error .indexError
  | _, none => .error .indexError
  | some h, some l =>
    if h.1 = "N-term" then
      if l.1 = "C-term" then .error .typeError
      else .error .assertionError
    else .error .assertionError

/-- The yield relation of `_generate_losses` (fragments.py lines 130-146) for
an empty `mod_losses` table, in which case only the `any_losses` loop runs:
`GenLossesYields any_losses depth acc out` holds when the generator, entered
with accumulated losses `acc` and `max_depth = depth`, yields the loss
multiset `out`.  The `max_depth < 1` case of the source yields the
accumulator but does not return, so the loss loop runs at every depth and the
recursion `_generate_losses(seq, new_losses, max_depth - 1)` continues below
depth 0. -/
inductive GenLossesYields (any_losses : List String) :
    ℤ → Multiset String → Multiset String → Prop
  | depth_exhausted (d : ℤ) (acc : Multiset String) :
      d < 1 → GenLossesYields any_losses d acc acc
  | loss_step (d : ℤ) (acc : Multiset String) (loss : String) :
      loss ∈ any_losses → GenLossesYields any_losses d acc (loss ::ₘ acc)
  | loss_child (d : ℤ) (acc out : Multiset String) (loss : String) :
      loss ∈ any_losses →
      GenLossesYields any_losses (d - 1) (loss ::ₘ acc) out →
      GenLossesYields any_losses d acc out


/-- The hypergeometric probability mass function of `scipy.stats.hypergeom`
with population `N`, `K` marked successes and `n` draws, used by
`_calc_score` (logo.py line 116). -/
def hypergeomPMF (N K n : ℕ) (j : ℕ) : ℚ :=
  (K.choose j * (N - K).choose (n - j) : ℕ) / (N.choose n : ℕ)

/-- The binomial probability mass function of `scipy.stats.binom` with `n`
trials and success probability `p`, used by `_calc_score` (logo.py
line 118). -/
def binomPMF (n : ℕ) (p : ℚ) (j : ℕ) : ℚ :=
  (n.choose j : ℚ) * p ^ j * (1 - p) ^ (n - j)

/-- The cumulative distribution function of a discrete distribution with
support in `0..n`, evaluated at an integer point, as `scipy`'s `cdf`. -/
def pyCDF (pmf : ℕ → ℚ) (n : ℕ) (x : ℤ) : ℚ :=
  ∑ j ∈ Finset.range (n + 1), if (j : ℤ) ≤ x then pmf j else 0

/-- The survival function `1 - cdf`, as `scipy`'s `sf`. -/
def pySF (pmf : ℕ → ℚ) (n : ℕ) (x : ℤ) : ℚ :=
  1 - pyCDF pmf n x

/-- Upper tail probability `Pr(k <= X)` of a distribution with support in
`0..n`, as the claims state it. -/
def upperTail (pmf : ℕ → ℚ) (n k : ℕ) : ℚ :=
  ∑ j ∈ Finset.range (n + 1), if k ≤ j then pmf j else 0

/-- Lower tail probability `Pr(X <= k)` of a distribution with support in
`0..n`, as the claims state it. -/
def lowerTail (pmf : ℕ → ℚ) (n k : ℕ) : ℚ :=
  ∑ j ∈ Finset.range (n + 1), if j ≤ k then pmf j else 0

/-- The `assert prob_fn in ["hypergeom", "binom"]` test of logo.py line 104,
after the `None` default is replaced by `"hypergeom"` (lines 101-102). -/
def validProbFn (prob_fn : Option String) : Prop :=
  prob_fn.getD "hypergeom" = "hypergeom" ∨ prob_fn.getD "hypergeom" = "binom"

instance (prob_fn : Option String) : Decidable (validProbFn prob_fn) := by
  unfold validProbFn
  exact inferInstance

/-- The value returned by `_calc_score`, kept exact: the early returns 0,
-200 and 200, and the generic score, recorded by the two tail probabilities
whose log-odds the source takes (`SVal.toScore` maps it to the float the
Python code returns). -/
inductive SVal
  | zero
  | negBig
  | posBig
  | logOdds (pr_gt_k pr_lt_k : ℚ)
  deriving DecidableEq, Repr

/-- The real number a returned `SVal` stands for: `np.log10` is embedded as
`Real.logb 10`. -/
noncomputable def SVal.toScore : SVal → ℝ
  | .zero => 0
  | .negBig => -200
  | .posBig => 200
  | .logOdds pr_gt_k pr_lt_k => -(Real.logb 10 ((pr_gt_k : ℝ) / (pr_lt_k : ℝ)))

/-- Embeds `_calc_score` (logo.py lines 97-128).  The assert raises for an
invalid `prob_fn` (modelled as `.error ()`); a non-positive background hit
count returns 0 before any distribution is built; otherwise the score is
`-log10(sf(k - 1) / cdf(k))` of the selected distribution, with the
`cdf <= 0` and `sf <= 0` guards returning -200 and 200. -/
def calc_score (fore_hit_size fore_size back_hit_size back_size : ℕ)
    (prob_fn : Option String) : Except Unit SVal :=
  if validProbFn prob_fn then
    if back_hit_size ≤ 0 then .ok .zero
    else
      let pmf : ℕ → ℚ :=
        if prob_fn.getD "hypergeom" = "hypergeom" then
          hypergeomPMF back_size back_hit_size fore_size
        else
          binomPMF fore_size ((back_hit_size : ℚ) / (back_size : ℚ))
      let pr_gt_k := pySF pmf fore_size ((fore_hit_size : ℤ) - 1)
      let pr_lt_k := pyCDF pmf fore_size (fore_hit_size : ℤ)
      if pr_lt_k ≤ 0 then .ok .negBig
      else if pr_gt_k ≤ 0 then .ok .posBig
      else .ok (.logOdds pr_gt_k pr_lt_k)
  else .error ()

/-- The generator `(i[pos] for i in xs)` over a list of strings; positions
are only read below a string's length in reachable uses (the asserts of
`logo` enforce equal lengths), so the default character is immaterial. -/
def column (xs : List (List Char)) (pos : ℕ) : List Char :=
  xs.map (fun s => s.getD pos '_')

/-- The `items()` view of `collections.Counter(l)`: each distinct element of
`l`, in first-occurrence order, with its multiplicity. -/
def counterItems (l : List Char) : List (Char × ℕ) :=
  l.dedup.map (fun c => (c, l.count c))

/-- The `back_counts` table of `_calc_scores` (logo.py lines 137-140): one
Counter per position of the background strings. -/
def back_counts (back : List (List Char)) : List (List (Char × ℕ)) :=
  (List.range back.headI.length).map (fun pos => counterItems (column back pos))

/-- The `num_calc` comprehension of `_calc_hline` (logo.py lines 171-176):
the number of Counter items with a positive count. -/
def num_calc (bc : List (List (Char × ℕ))) : ℕ :=
  (bc.map (fun counts => (counts.filter (fun pr => 0 < pr.2)).length)).sum

/-- The `alpha = p / num_calc` of logo.py line 177 (exact arithmetic; the
Python code raises ZeroDivisionError when `num_calc` is 0, which no reachable
call produces because `logo` asserts a non-empty first background string). -/
def calc_alpha (bc : List (List (Char × ℕ))) (p : ℚ) : ℚ :=
  p / (num_calc bc : ℚ)

/-- Embeds `_calc_hline` (logo.py lines 156-178):
`abs(log10(alpha / (1 - alpha)))`. -/
noncomputable def calc_hline (bc : List (List (Char × ℕ))) (p : ℚ) : ℝ :=
  |Real.logb 10 ((calc_alpha bc p / (1 - calc_alpha bc p) : ℚ) : ℝ)|

/-- Monadic map over `Except`, evaluating left to right and propagating the
first error, as Python's eagerly evaluated comprehensions do. -/
def exceptMap (f : α → Except ε β) : List α → Except ε (List β)
  | [] => .ok []
  | a :: l => do
    let b ← f a
    let bs ← exceptMap f l
    pure (b :: bs)

/-- Embeds `_calc_scores` (logo.py lines 131-153): the per-base, per-position
score table (a Counter lookup of a missing key yields 0, i.e. exactly the
column count of the base) paired with the `_calc_hline` cutoff. -/
noncomputable def calc_scores (bases : List Char) (fore back : List (List Char))
    (p : ℚ) (prob_fn : Option String) :
    Except Unit ((List (Char × List SVal)) × ℝ) := do
  let len := back.headI.length
  let tbl ← exceptMap (fun b => do
    let col ← exceptMap (fun pos =>
      calc_score ((column fore pos).count b) fore.length
        ((column back pos).count b) back.length prob_fn) (List.range len)
    pure (b, col)) bases
  pure (tbl, calc_hline (back_counts back) p)

/-- The amino-acid alphabet of logo.py line 18. -/
def BASES : List Char := "ACDEFGHIKLMNPQRSTVWY".toList

/-- Embeds `logo` (logo.py lines 386-455) up to the excluded drawing layer:
an empty background returns `(None, None)` (modelled `.ok none`) before any
score is computed; otherwise the two asserts of lines 421-426 must pass, and
the `_calc_scores` result is what the figure is drawn from. -/
noncomputable def logo (fore back : List (List Char)) (p : ℚ)
    (prob_fn : Option String) :
    Except Unit (Option ((List (Char × List SVal)) × ℝ)) :=
  if back = [] then .ok none
  else if ¬ 0 < back.headI.length then .error ()
  else if ¬ ((∀ i ∈ fore, i.length = back.headI.length) ∧
             (∀ i ∈ back, i.length = back.headI.length)) then .error ()
  else (calc_scores BASES fore back p prob_fn).map some

/-- All residue characters occurring anywhere in the background set; any
character outside it has background count 0 at every position. -/
def char_universe (back : List (List Char)) : Finset Char :=
  back.flatten.toFinset

/-- The claim's count for the Bonferroni correction: the number of
`(position, residue)` pairs whose background count is positive. -/
def positive_pairs (back : List (List Char)) : ℕ :=
  (((Finset.range back.headI.length) ×ˢ char_universe back).filter
    (fun pc => 0 < (column back pc.1).count pc.2)).card

/-- The distribution `X` named by the claims for a given `prob_fn`:
hypergeometric with population `N`, `K` successes and `n` draws for
`"hypergeom"` (and for the `None` default), binomial with `n` trials and
success probability `K / N` for `"binom"`. -/
def claimDist (prob_fn : Option String) (N K n : ℕ) : ℕ → ℚ :=
  if prob_fn.getD "hypergeom" = "hypergeom" then hypergeomPMF N K n
  else binomPMF n ((K : ℚ) / (N : ℚ))

/-- The fragment built at fragments.py line 78 for a `(start, end)` pair: an
N-terminus prepended to the slice `pep_seq[start:end]` of the stripped
sequence. -/
def fragmentAt (pep_seq : List Residue) (s e : ℕ) : List Residue :=
  ("N-term", []) :: pySlice (strip_terms pep_seq) s e

/-- The dictionary key of the fragment at `(s, e)`. -/
def nameAt (pep_seq : List Residue) (s e : ℕ) : String :=
  sequence_name (fragmentAt pep_seq s e)

/-- The names of all mod-specific neutral losses in the default table. -/
def modLossNames : List String :=
  ["SOCH_4", "SO_2CH_4", "H_3PO_4", "HPO_3", "HPO_3-H_2O"]

/-- A peptide with two internal fragments whose letter sequences coincide
(`SP`, once with and once without a phosphorylated serine), so that the two
fragments' dictionary entries collide. -/
def pepCE : List Residue :=
  [("N-term", []), ("A", []), ("A", []), ("S", ["Phospho"]), ("P", []),
   ("S", []), ("P", []), ("G", []), ("C-term", [])]

theorem mem_pyRange {a b i : ℕ} : i ∈ pyRange a b ↔ a ≤ i ∧ i < b := by
  simp [pyRange, And.comm]

theorem mem_internalPairs {L s e : ℕ} :
    (s, e) ∈ internalPairs L ↔ 2 ≤ s ∧ s < e ∧ e < L := by
  simp only [internalPairs, List.mem_flatMap, List.mem_map, Prod.mk.injEq]
  constructor
  · rintro ⟨s', hs', e', he', rfl, rfl⟩
    rw [mem_pyRange] at hs' he'
    omega
  · rintro ⟨h2, hse, heL⟩
    exact ⟨s, mem_pyRange.mpr ⟨h2, by omega⟩, e, mem_pyRange.mpr ⟨by omega, heL⟩, rfl, rfl⟩

theorem string_append_cancel {s t u : String} (h : s ++ t = s ++ u) : t = u := by
  have hd : (s ++ t).data = (s ++ u).data := by rw [h]
  simp only [String.data_append] at hd
  exact String.ext (List.append_cancel_left hd)

theorem string_append_ne_self {s t : String} (ht : t ≠ "") : s ++ t ≠ s := by
  intro h
  apply ht
  have hd : (s ++ t).data = s.data := by rw [h]
  simp only [String.data_append] at hd
  have : t.data = [] := by
    have := congrArg List.length hd
    simp at this
    exact List.eq_nil_of_length_eq_zero this
  exact String.ext (by simp [this])

theorem dict_foldl_no_key (k : String) :
    ∀ (entries : List (String × ℤ)) (acc : Option ℤ), keyCount entries k = 0 →
      entries.foldl (fun acc pr => if pr.1 = k then some pr.2 else acc) acc = acc := by
  intro entries
  induction entries with
  | nil => intro acc _; rfl
  | cons a t ih =>
    intro acc h
    have hcount : keyCount (a :: t) k = (if a.1 = k then 1 else 0) + keyCount t k := by
      simp only [keyCount, List.filter_cons]
      by_cases ha : a.1 = k <;> simp [ha] <;> omega
    by_cases ha : a.1 = k
    · rw [hcount, if_pos ha] at h; omega
    · rw [List.foldl_cons]
      simp only [if_neg ha]
      rw [hcount, if_neg ha] at h
      exact ih acc (by omega)

theorem keyCount_pos_of_mem {entries : List (String × ℤ)} {k : String} {v : ℤ}
    (h : (k, v) ∈ entries) : 0 < keyCount entries k := by
  unfold keyCount
  have : (k, v) ∈ entries.filter (fun pr => pr.1 = k) :=
    List.mem_filter.mpr ⟨h, by simp⟩
  exact List.length_pos.mpr (List.ne_nil_of_mem this)

theorem dict_get_of_keyCount_one {entries : List (String × ℤ)} {k : String} {v : ℤ}
    (hmem : (k, v) ∈ entries) (hone : keyCount entries k = 1) :
    dict_get entries k = some v := by
  induction entries with
  | nil => cases hmem
  | cons a t ih =>
    have hcount : keyCount (a :: t) k = (if a.1 = k then 1 else 0) + keyCount t k := by
      simp only [keyCount, List.filter_cons]
      by_cases ha : a.1 = k <;> simp [ha] <;> omega
    by_cases ha : a.1 = k
    · have ht0 : keyCount t k = 0 := by rw [hcount, if_pos ha] at hone; omega
      have hav : a = (k, v) := by
        rcases List.mem_cons.mp hmem with h | h
        · exact h.symm
        · exact absurd (keyCount_pos_of_mem h) (by omega)
      unfold dict_get
      rw [List.foldl_cons, if_pos ha, dict_foldl_no_key k t _ ht0, hav]
    · have hmem' : (k, v) ∈ t := by
        rcases List.mem_cons.mp hmem with h | h
        · exact absurd (congrArg Prod.fst h.symm) ha
        · exact h
      have ht1 : keyCount t k = 1 := by rw [hcount, if_neg ha] at hone; omega
      have := ih hmem' ht1
      unfold dict_get at this ⊢
      rwa [List.foldl_cons, if_neg ha]

theorem sequence_mass_fragmentAt (pep_seq : List Residue) (s e : ℕ) :
    sequence_mass (fragmentAt pep_seq s e) =
      claim_frag_mass (pySlice (strip_terms pep_seq) s e) := rfl

theorem block_subset {pep_seq : List Residue} {aaL : List String}
    {modL : List ((String × String) × List String)} {s e : ℕ}
    (h : (s, e) ∈ internalPairs (strip_terms pep_seq).length) :
    ∀ x ∈ frag_block (strip_terms pep_seq) aaL modL (s, e),
      x ∈ internal_fragment_ions pep_seq aaL modL := by
  intro x hx
  exact List.mem_flatMap.mpr ⟨(s, e), h, hx⟩

/-- C5 (amended): for every peptide sequence, `internal_fragment_ions`
enumerates exactly the contiguous internal fragments `pep_seq[start:end]`
with `2 <= start < end <= L - 1` of the stripped sequence of length `L`; for
each such fragment an entry under the fragment's letter name with the claimed
base m/z (N-terminus mass plus amino-acid plus first-modification mass per
residue) is written into the dictionary, and whenever that name is written
exactly once, the recorded m/z is exactly the claimed base m/z.  (Fragments
sharing one letter sequence overwrite each other's entries, so the
uniqueness proviso cannot be dropped; see the counterexample.) -/
theorem internal_fragment_ions_base (pep_seq : List Residue) (s e : ℕ)
    (h2 : 2 ≤ s) (hse : s < e) (heL : e ≤ (strip_terms pep_seq).length - 1) :
    (s, e) ∈ internalPairs (strip_terms pep_seq).length ∧
    (∀ s' e' : ℕ, (s', e') ∈ internalPairs (strip_terms pep_seq).length →
      2 ≤ s' ∧ s' < e' ∧ e' ≤ (strip_terms pep_seq).length - 1) ∧
    (nameAt pep_seq s e, claim_frag_mass (pySlice (strip_terms pep_seq) s e)) ∈
      internal_fragment_ions pep_seq aaLossesDefault modLossesDefault ∧
    (keyCount (internal_fragment_ions pep_seq aaLossesDefault modLossesDefault)
        (nameAt pep_seq s e) = 1 →
      dict_get (internal_fragment_ions pep_seq aaLossesDefault modLossesDefault)
          (nameAt pep_seq s e) =
        some (claim_frag_mass (pySlice (strip_terms pep_seq) s e))) := by
  have hpair : (s, e) ∈ internalPairs (strip_terms pep_seq).length := by
    rw [mem_internalPairs]
    omega
  have hbase : (nameAt pep_seq s e, claim_frag_mass (pySlice (strip_terms pep_seq) s e)) ∈
      frag_block (strip_terms pep_seq) aaLossesDefault modLossesDefault (s, e) := by
    rw [← sequence_mass_fragmentAt]
    exact List.mem_cons_self _ _
  have hmem := block_subset hpair _ hbase
  refine ⟨hpair, ?_, hmem, fun hone => dict_get_of_keyCount_one hmem hone⟩
  intro s' e' h
  rw [mem_internalPairs] at h
  omega

/-- C5 counterexample: in the peptide `pepCE` the fragments at `(2, 4)` and
`(4, 6)` are both named `SP` (the first contains the phosphorylated serine),
so the later write overwrites the earlier one and the dictionary entry for
the fragment at `(2, 4)` is not its own base m/z. -/
theorem internal_fragment_ions_base_cex :
    (2, 4) ∈ internalPairs (strip_terms pepCE).length ∧
    dict_get (internal_fragment_ions pepCE aaLossesDefault modLossesDefault)
        (nameAt pepCE 2 4) ≠
      some (claim_frag_mass (pySlice (strip_terms pepCE) 2 4)) := by
  decide

/-- Witness for C5 at the fragment `(2, 6)` of `pepCE`, whose name `SPSP` is
written exactly once. -/
theorem internal_fragment_ions_base_witness :
    (2, 6) ∈ internalPairs (strip_terms pepCE).length ∧
    (nameAt pepCE 2 6, claim_frag_mass (pySlice (strip_terms pepCE) 2 6)) ∈
      internal_fragment_ions pepCE aaLossesDefault modLossesDefault ∧
    dict_get (internal_fragment_ions pepCE aaLossesDefault modLossesDefault)
        (nameAt pepCE 2 6) =
      some (claim_frag_mass (pySlice (strip_terms pepCE) 2 6)) := by
  have h := internal_fragment_ions_base pepCE 2 6 (by decide) (by decide) (by decide)
  exact ⟨h.1, h.2.2.1, h.2.2.2 (by decide)⟩

theorem modLossNames_spec :
    (∀ lm ∈ modLossesDefault, ∀ loss ∈ lm.2, loss ∈ modLossNames) ∧
    (∀ loss ∈ modLossNames, loss ≠ "" ∧ loss ∉ aaLossesDefault) := by
  decide

/-- C6 (amended): every internal fragment's iteration writes, for each
amino-acid loss, an entry `name ++ loss` at the base m/z minus the loss mass,
and likewise for each mod-specific loss whose `(letter, modification)` pair
occurs on a residue of the fragment; a mod-specific loss name carried by no
applicable pair of the fragment is written nowhere in that fragment's block.
(The final dictionary merges equal keys across fragments, so absence from
the whole result can fail; see the counterexample.) -/
theorem internal_fragment_ions_losses (pep_seq : List Residue) (s e : ℕ)
    (h2 : 2 ≤ s) (hse : s < e) (heL : e ≤ (strip_terms pep_seq).length - 1) :
    (∀ loss ∈ aaLossesDefault,
      (nameAt pep_seq s e ++ loss, sequence_mass (fragmentAt pep_seq s e) - MASSES loss) ∈
        internal_fragment_ions pep_seq aaLossesDefault modLossesDefault) ∧
    (∀ lm ∈ modLossesDefault, carries (fragmentAt pep_seq s e) lm.1 = true →
      ∀ loss ∈ lm.2,
        (nameAt pep_seq s e ++ loss, sequence_mass (fragmentAt pep_seq s e) - MASSES loss) ∈
          internal_fragment_ions pep_seq aaLossesDefault modLossesDefault) ∧
    (∀ loss ∈ modLossNames,
      (∀ lm ∈ modLossesDefault, loss ∈ lm.2 → carries (fragmentAt pep_seq s e) lm.1 = false) →
      ∀ v : ℤ, (nameAt pep_seq s e ++ loss, v) ∉
        frag_block (strip_terms pep_seq) aaLossesDefault modLossesDefault (s, e)) := by
  have hpair : (s, e) ∈ internalPairs (strip_terms pep_seq).length := by
    rw [mem_internalPairs]
    omega
  refine ⟨?_, ?_, ?_⟩
  · intro loss hloss
    refine block_subset hpair _ ?_
    refine List.mem_cons_of_mem _ (List.mem_append_left _ ?_)
    exact List.mem_map.mpr ⟨loss, hloss, rfl⟩
  · intro lm hlm hcar loss hloss
    refine block_subset hpair _ ?_
    refine List.mem_cons_of_mem _ (List.mem_append_right _ ?_)
    refine List.mem_flatMap.mpr ⟨lm, hlm, ?_⟩
    show (nameAt pep_seq s e ++ loss, sequence_mass (fragmentAt pep_seq s e) - MASSES loss) ∈
      (if carries (("N-term", []) :: pySlice (strip_terms pep_seq) s e) lm.1 then
        lm.2.map (fun loss =>
          (sequence_name (("N-term", []) :: pySlice (strip_terms pep_seq) s e) ++ loss,
           sequence_mass (("N-term", []) :: pySlice (strip_terms pep_seq) s e) - MASSES loss))
      else [])
    rw [show (("N-term", []) :: pySlice (strip_terms pep_seq) s e) = fragmentAt pep_seq s e from rfl,
      if_pos hcar]
    exact List.mem_map.mpr ⟨loss, hloss, rfl⟩
  · intro loss hloss hnone v hv
    have hprops := modLossNames_spec.2 loss hloss
    simp only [frag_block, List.mem_cons, List.mem_append, List.mem_map,
      List.mem_flatMap, Prod.mk.injEq] at hv
    rcases hv with ⟨hname, _⟩ | ⟨al, hal, hname, _⟩ | ⟨lm, hlm, hin⟩
    · exact string_append_ne_self hprops.1 hname
    · exact hprops.2 (string_append_cancel hname ▸ hal)
    · by_cases hcar : carries (fragmentAt pep_seq s e) lm.1
      · rw [show (("N-term", []) :: pySlice (strip_terms pep_seq) s e) = fragmentAt pep_seq s e
            from rfl, if_pos hcar] at hin
        obtain ⟨loss', hloss', heq⟩ := List.mem_map.mp hin
        have heq' : loss' = loss := string_append_cancel (congrArg Prod.fst heq)
        subst heq'
        exact absurd (hnone lm hlm hloss') (by simp [hcar])
      · rw [show (("N-term", []) :: pySlice (strip_terms pep_seq) s e) = fragmentAt pep_seq s e
            from rfl, if_neg hcar] at hin
        cases hin

/-- C6 counterexample: the fragment of `pepCE` at `(4, 6)` is `SP` with no
phosphorylated residue, so by the claim the ion `SPH_3PO_4` should be absent
for it; the result nevertheless contains that key, written for the
equally-named phosphorylated fragment at `(2, 4)`. -/
theorem internal_fragment_ions_losses_cex :
    (4, 6) ∈ internalPairs (strip_terms pepCE).length ∧
    (∀ lm ∈ modLossesDefault, "H_3PO_4" ∈ lm.2 →
      carries (fragmentAt pepCE 4 6) lm.1 = false) ∧
    dict_get (internal_fragment_ions pepCE aaLossesDefault modLossesDefault)
        (nameAt pepCE 4 6 ++ "H_3PO_4") ≠ none := by
  decide

/-- Witness for C6 at the fragment `(2, 4)` of `pepCE`, which carries a
phosphorylated serine: its water-loss and phosphate-loss ions are written,
and the methionine-oxidation loss `SOCH_4`, carried by no residue, is not
written in its block. -/
theorem internal_fragment_ions_losses_witness :
    (nameAt pepCE 2 4 ++ "H_2O", sequence_mass (fragmentAt pepCE 2 4) - MASSES "H_2O") ∈
      internal_fragment_ions pepCE aaLossesDefault modLossesDefault ∧
    (nameAt pepCE 2 4 ++ "H_3PO_4", sequence_mass (fragmentAt pepCE 2 4) - MASSES "H_3PO_4") ∈
      internal_fragment_ions pepCE aaLossesDefault modLossesDefault ∧
    (nameAt pepCE 2 4 ++ "SOCH_4", (0 : ℤ)) ∉
      frag_block (strip_terms pepCE) aaLossesDefault modLossesDefault (2, 4) := by
  have h := internal_fragment_ions_losses pepCE 2 4 (by decide) (by decide) (by decide)
  exact ⟨h.1 "H_2O" (by decide),
    h.2.1 (("S", "Phospho"), ["H_3PO_4"]) (by decide) (by decide) "H_3PO_4" (by decide),
    h.2.2 "SOCH_4" (by decide) (by decide) 0⟩

theorem gen_losses_replicate (n : ℕ) : ∀ (d : ℤ) (acc : Multiset String),
    GenLossesYields ["H_2O"] d acc (Multiset.replicate (n + 1) "H_2O" + acc) := by
  induction n with
  | zero =>
    intro d acc
    simpa using GenLossesYields.loss_step d acc "H_2O" (by simp)
  | succ m ih =>
    intro d acc
    refine GenLossesYields.loss_child d acc _ "H_2O" (by simp) ?_
    have h := ih (d - 1) ("H_2O" ::ₘ acc)
    have heq : Multiset.replicate (m + 1) "H_2O" + ("H_2O" ::ₘ acc) =
        Multiset.replicate (m + 1 + 1) "H_2O" + acc := by
      simp [Multiset.replicate_succ, Multiset.cons_add]
    rwa [heq] at h

/-- C7: the neutral-loss generation of `_b_y_ions` does not respect its depth
bound.  With `any_losses = ["H_2O"]` and an empty `mod_losses` table, the
generator entered with the default `max_depth = 2` and an empty accumulator
yields a three-fold water loss, and in fact a loss multiset of every positive
size: the `max_depth < 1` branch yields without returning, so the recursion
continues at arbitrarily negative depths and the generator never terminates. -/
theorem generate_losses_depth_violated :
    (GenLossesYields ["H_2O"] 2 0 (Multiset.replicate 3 "H_2O") ∧
      3 > 2) ∧
    ∀ n : ℕ, GenLossesYields ["H_2O"] 2 0 (Multiset.replicate (n + 1) "H_2O") := by
  constructor
  · exact ⟨by simpa using gen_losses_replicate 2 2 0, by omega⟩
  · intro n
    simpa using gen_losses_replicate n 2 0

/-- C4: `fragment_ions` raises TypeError on every peptide sequence that
passes its two terminal asserts, because the call at fragments.py lines
334-339 passes four positional arguments to `_b_y_ions`, which requires six;
no ion dictionary is ever returned. -/
theorem fragment_ions_always_raises (pep_seq : List Residue) (charge : ℕ)
    (h1 : pep_seq.head?.map Prod.fst = some "N-term")
    (h2 : pep_seq.getLast?.map Prod.fst = some "C-term") :
    fragment_ions pep_seq charge = .error .typeError := by
  unfold fragment_ions
  cases hh : pep_seq.head? with
  | none => rw [hh] at h1; cases h1
  | some a =>
    cases hl : pep_seq.getLast? with
    | none => rw [hl] at h2; cases h2
    | some b =>
      rw [hh] at h1
      rw [hl] at h2
      have ha : a.1 = "N-term" := by simpa using h1
      have hb : b.1 = "C-term" := by simpa using h2
      simp [ha, hb]

/-- Witness for C4: the modified peptide of the `fragment_ions` docstring
shape raises TypeError at charge 2. -/
theorem fragment_ions_always_raises_witness :
    fragment_ions
        [("N-term", []), ("A", []), ("S", ["Phospho"]), ("Y", ["Phospho"]), ("C-term", [])]
        2 = .error .typeError :=
  fragment_ions_always_raises _ 2 rfl rfl

/-- C8: `_parent_ions` raises AttributeError on every input: fragments.py
line 254 passes `(parent_mass, "MH")` to `_charged_m_zs`, whose parameters
are `(name, mass, max_charge)`, so `name.split("-")` is attempted on the
numeric total mass.  No `MH` parent ion is ever yielded. -/
theorem parent_ions_always_raises :
    ∀ (frag_masses : List ℚ) (parent_max_charge : ℕ),
      parent_ions frag_masses parent_max_charge = .error .attributeError :=
  fun _ _ => rfl

theorem calc_score_isOk (k n K N : ℕ) (prob_fn : Option String)
    (hv : validProbFn prob_fn) : ∃ r, calc_score k n K N prob_fn = .ok r := by
  simp only [calc_score, if_pos hv]
  repeat' split
  all_goals exact ⟨_, rfl⟩

/-- C9: `_calc_score` returns exactly 0 for a non-positive background hit
count whenever the probability-function assert passes, and it raises
AssertionError exactly when `prob_fn` is neither `None` nor `"hypergeom"`
nor `"binom"`. -/
theorem calc_score_guard (k n K N : ℕ) (prob_fn : Option String) :
    (validProbFn prob_fn → K ≤ 0 →
      (calc_score k n K N prob_fn).map SVal.toScore = .ok 0) ∧
    (calc_score k n K N prob_fn = .error () ↔ ¬ validProbFn prob_fn) := by
  constructor
  · intro hv hK
    simp [calc_score, hv, hK, SVal.toScore, Except.map]
  · by_cases hv : validProbFn prob_fn
    · constructor
      · intro h
        obtain ⟨r, hr⟩ := calc_score_isOk k n K N prob_fn hv
        rw [hr] at h
        cases h
      · intro h; exact absurd hv h
    · simp [calc_score, hv]

/-- Witness for C9: a zero background hit count yields score 0 under
`"binom"`, and an unrecognized probability function raises. -/
theorem calc_score_guard_witness :
    (calc_score 3 5 0 10 (some "binom")).map SVal.toScore = .ok 0 ∧
    calc_score 3 5 4 10 (some "bogus") = .error () :=
  ⟨(calc_score_guard 3 5 0 10 (some "binom")).1 (by decide) (by decide),
    (calc_score_guard 3 5 4 10 (some "bogus")).2.mpr (by decide)⟩

theorem hypergeom_total (N K n : ℕ) (hK : K ≤ N) (hn : n ≤ N) :
    ∑ j ∈ Finset.range (n + 1), hypergeomPMF N K n j = 1 := by
  have hV : ∑ j ∈ Finset.range (n + 1), K.choose j * (N - K).choose (n - j) =
      N.choose n := by
    have h := Nat.add_choose_eq K (N - K) n
    rw [Nat.add_sub_cancel' hK] at h
    rw [h, Finset.Nat.sum_antidiagonal_eq_sum_range_succ_mk]
  have hC : (0 : ℚ) < (N.choose n : ℚ) := by
    exact_mod_cast Nat.choose_pos hn
  unfold hypergeomPMF
  rw [← Finset.sum_div, ← Nat.cast_sum, hV]
  exact div_self (ne_of_gt hC)

theorem binom_total (n : ℕ) (p : ℚ) :
    ∑ j ∈ Finset.range (n + 1), binomPMF n p j = 1 := by
  have h : (1 : ℚ) = ∑ m ∈ Finset.range (n + 1), p ^ m * (1 - p) ^ (n - m) * (n.choose m : ℚ) := by
    have h2 := add_pow p (1 - p) n
    rwa [show p + (1 - p) = 1 by ring, one_pow] at h2
  calc ∑ j ∈ Finset.range (n + 1), binomPMF n p j
      = ∑ m ∈ Finset.range (n + 1), p ^ m * (1 - p) ^ (n - m) * (n.choose m : ℚ) := by
        apply Finset.sum_congr rfl
        intro j _
        unfold binomPMF
        ring
    _ = 1 := h.symm

theorem pyCDF_coe (pmf : ℕ → ℚ) (n k : ℕ) :
    pyCDF pmf n (k : ℤ) = lowerTail pmf n k := by
  unfold pyCDF lowerTail
  apply Finset.sum_congr rfl
  intro j _
  simp [Nat.cast_le]

theorem pySF_eq_upperTail (pmf : ℕ → ℚ) (n k : ℕ)
    (htot : ∑ j ∈ Finset.range (n + 1), pmf j = 1) :
    pySF pmf n ((k : ℤ) - 1) = upperTail pmf n k := by
  unfold pySF
  have hsplit : pyCDF pmf n ((k : ℤ) - 1) + upperTail pmf n k =
      ∑ j ∈ Finset.range (n + 1), pmf j := by
    unfold pyCDF upperTail
    rw [← Finset.sum_add_distrib]
    apply Finset.sum_congr rfl
    intro j _
    by_cases h : k ≤ j
    · rw [if_neg (by omega), if_pos h, zero_add]
    · rw [if_pos (by omega), if_neg h, add_zero]
  rw [htot] at hsplit
  linarith

/-- C2: for positive background hits and both tail probabilities positive,
`_calc_score` returns `-log10(Pr(k <= X) / Pr(X <= k))`, where `X` is
hypergeometric with population `N = back_size`, `K = back_hit_size` successes
and `n = fore_size` draws when `prob_fn` is `"hypergeom"` or the `None`
default, and binomial with `n` trials and success probability `K / N` when
`prob_fn` is `"binom"` (hypotheses `K <= N` and `n <= N` make the
hypergeometric population well-formed). -/
theorem calc_score_log_odds (k n K N : ℕ) (prob_fn : Option String)
    (hK : 0 < K) (hKN : K ≤ N) (hnN : n ≤ N)
    (hpf : prob_fn = none ∨ prob_fn = some "hypergeom" ∨ prob_fn = some "binom")
    (hGe : 0 < upperTail (claimDist prob_fn N K n) n k)
    (hLe : 0 < lowerTail (claimDist prob_fn N K n) n k) :
    (calc_score k n K N prob_fn).map SVal.toScore =
      .ok (-(Real.logb 10
        ((upperTail (claimDist prob_fn N K n) n k : ℝ) /
          (lowerTail (claimDist prob_fn N K n) n k : ℝ)))) := by
  have hv : validProbFn prob_fn := by
    rcases hpf with h | h | h <;> subst h <;> simp [validProbFn]
  have htot : ∑ j ∈ Finset.range (n + 1), claimDist prob_fn N K n j = 1 := by
    unfold claimDist
    split
    · exact hypergeom_total N K n hKN hnN
    · exact binom_total n _
  have hpmf : (if prob_fn.getD "hypergeom" = "hypergeom" then hypergeomPMF N K n
      else binomPMF n ((K : ℚ) / (N : ℚ))) = claimDist prob_fn N K n := rfl
  have hsf := pySF_eq_upperTail (claimDist prob_fn N K n) n k htot
  have hcdf := pyCDF_coe (claimDist prob_fn N K n) n k
  simp only [calc_score, if_pos hv, if_neg (show ¬ K ≤ 0 by omega), hpmf, hsf, hcdf]
  rw [if_neg (not_le.mpr hLe), if_neg (not_le.mpr hGe)]
  simp [Except.map, SVal.toScore]

/-- Witness for C2 with the default probability function on the population
`N = 4`, `K = 2`, `n = 2`, `k = 1`. -/
theorem calc_score_log_odds_witness :
    (0 : ℚ) < upperTail (claimDist none 4 2 2) 2 1 ∧
    (0 : ℚ) < lowerTail (claimDist none 4 2 2) 2 1 ∧
    (calc_score 1 2 2 4 none).map SVal.toScore =
      .ok (-(Real.logb 10
        ((upperTail (claimDist none 4 2 2) 2 1 : ℝ) /
          (lowerTail (claimDist none 4 2 2) 2 1 : ℝ)))) := by
  have hGe : (0 : ℚ) < upperTail (claimDist none 4 2 2) 2 1 := by
    norm_num [upperTail, claimDist, hypergeomPMF, Finset.sum_range_succ, Nat.choose]
  have hLe : (0 : ℚ) < lowerTail (claimDist none 4 2 2) 2 1 := by
    norm_num [lowerTail, claimDist, hypergeomPMF, Finset.sum_range_succ, Nat.choose]
  exact ⟨hGe, hLe,
    calc_score_log_odds 1 2 2 4 none (by norm_num) (by norm_num) (by norm_num)
      (Or.inl rfl) hGe hLe⟩

theorem list_range_map_sum {M : Type*} [AddCommMonoid M] (f : ℕ → M) (n : ℕ) :
    ((List.range n).map f).sum = ∑ i ∈ Finset.range n, f i := by
  induction n with
  | zero => simp
  | succ m ih =>
    rw [List.range_succ, List.map_append, List.sum_append, Finset.sum_range_succ, ih]
    simp

theorem counter_filter_all (col : List Char) :
    ((counterItems col).filter (fun pr => 0 < pr.2)).length = col.toFinset.card := by
  unfold counterItems
  have hall : ∀ x ∈ col.dedup.map (fun c => (c, col.count c)),
      (decide (0 < x.2)) = true := by
    intro x hx
    obtain ⟨c, hc, rfl⟩ := List.mem_map.mp hx
    simp [List.count_pos_iff.mpr (List.mem_dedup.mp hc)]
  rw [List.filter_eq_self.mpr hall, List.length_map, List.card_toFinset]

theorem num_calc_eq_positive_pairs (back : List (List Char))
    (hlen : ∀ s ∈ back, s.length = back.headI.length) :
    num_calc (back_counts back) = positive_pairs back := by
  unfold num_calc back_counts positive_pairs
  rw [List.map_map, list_range_map_sum, Finset.card_filter, Finset.sum_product]
  apply Finset.sum_congr rfl
  intro pos hpos
  show ((counterItems (column back pos)).filter (fun pr => 0 < pr.2)).length = _
  rw [counter_filter_all, ← Finset.card_filter]
  congr 1
  apply Finset.ext
  intro c
  simp only [Finset.mem_filter, List.mem_toFinset, char_universe]
  constructor
  · intro hc
    refine ⟨?_, List.count_pos_iff.mpr hc⟩
    obtain ⟨s, hs, rfl⟩ := List.mem_map.mp hc
    have hlt : pos < s.length := by
      rw [hlen s hs]
      exact Finset.mem_range.mp hpos
    rw [List.getD_eq_getElem s '_' hlt]
    exact List.mem_flatten.mpr ⟨s, hs, List.getElem_mem hlt⟩
  · rintro ⟨_, hcount⟩
    exact List.count_pos_iff.mp hcount

theorem exceptMap_ok {α β : Type} (f : α → Except Unit β) (l : List α)
    (h : ∀ a ∈ l, ∃ b, f a = .ok b) : ∃ bs, exceptMap f l = .ok bs := by
  induction l with
  | nil => exact ⟨[], rfl⟩
  | cons a t ih =>
    obtain ⟨b, hb⟩ := h a (List.mem_cons_self a t)
    obtain ⟨bs, hbs⟩ := ih (fun x hx => h x (List.mem_cons_of_mem a hx))
    refine ⟨b :: bs, ?_⟩
    simp only [exceptMap, hb, hbs]
    rfl

theorem calc_scores_ok (bases : List Char) (fore back : List (List Char))
    (p : ℚ) (prob_fn : Option String) (hv : validProbFn prob_fn) :
    ∃ tbl, calc_scores bases fore back p prob_fn =
      .ok (tbl, calc_hline (back_counts back) p) := by
  have hinner : ∀ b ∈ bases, ∃ r, (do
      let col ← exceptMap (fun pos =>
        calc_score ((column fore pos).count b) fore.length
          ((column back pos).count b) back.length prob_fn)
        (List.range back.headI.length)
      pure (b, col) : Except Unit (Char × List SVal)) = .ok r := by
    intro b _
    obtain ⟨col, hcol⟩ :=
      exceptMap_ok _ (List.range back.headI.length)
        (fun pos _ => calc_score_isOk _ _ _ _ _ hv)
    exact ⟨(b, col), by rw [hcol]; rfl⟩
  obtain ⟨tbl, htbl⟩ := exceptMap_ok _ bases hinner
  refine ⟨tbl, ?_⟩
  unfold calc_scores
  dsimp only
  rw [htbl]
  rfl

/-- C3: the cutoff `_calc_scores` pairs with the per-residue scores is
`_calc_hline`'s value, and that value is `abs(log10(alpha / (1 - alpha)))`
with `alpha = p` divided by the number of `(position, residue)` pairs whose
background count is positive - a Bonferroni correction over the tests
actually performed. -/
theorem calc_hline_bonferroni (fore back : List (List Char)) (p : ℚ)
    (prob_fn : Option String) (hpf : validProbFn prob_fn) (hne : back ≠ [])
    (hlen : ∀ s ∈ back, s.length = back.headI.length)
    (hpos : 0 < back.headI.length) :
    (∃ tbl, calc_scores BASES fore back p prob_fn =
        .ok (tbl, calc_hline (back_counts back) p)) ∧
    calc_hline (back_counts back) p =
      |Real.logb 10
        (((p / (positive_pairs back : ℚ)) /
          (1 - p / (positive_pairs back : ℚ)) : ℚ) : ℝ)| := by
  refine ⟨calc_scores_ok BASES fore back p prob_fn hpf, ?_⟩
  unfold calc_hline calc_alpha
  rw [num_calc_eq_positive_pairs back hlen]

/-- Witness for C3 on a two-string background of width two. -/
theorem calc_hline_bonferroni_witness :
    (∃ tbl, calc_scores BASES [['A', 'C']] [['A', 'C'], ['A', 'A']] (1 / 20) none =
        .ok (tbl, calc_hline (back_counts [['A', 'C'], ['A', 'A']]) (1 / 20))) ∧
    calc_hline (back_counts [['A', 'C'], ['A', 'A']]) (1 / 20) =
      |Real.logb 10
        ((((1 : ℚ) / 20 / (positive_pairs [['A', 'C'], ['A', 'A']] : ℚ)) /
          (1 - (1 : ℚ) / 20 / (positive_pairs [['A', 'C'], ['A', 'A']] : ℚ)) : ℚ) : ℝ)| :=
  calc_hline_bonferroni [['A', 'C']] [['A', 'C'], ['A', 'A']] (1 / 20) none
    (by decide) (by decide) (by decide) (by decide)

/-- C10: `logo` returns `(None, None)` on an empty background without
computing scores, and for a non-empty background it succeeds exactly when the
first background string is non-empty and every foreground and background
string has that length (asserting otherwise). -/
theorem logo_empty_and_asserts (fore back : List (List Char)) (p : ℚ)
    (prob_fn : Option String) (hpf : validProbFn prob_fn) (hne : back ≠ []) :
    logo fore [] p prob_fn = .ok none ∧
    ((∃ r, logo fore back p prob_fn = .ok (some r)) ↔
      (0 < back.headI.length ∧ (∀ i ∈ fore, i.length = back.headI.length) ∧
        (∀ i ∈ back, i.length = back.headI.length))) := by
  constructor
  · simp [logo]
  · unfold logo
    rw [if_neg hne]
    by_cases h1 : 0 < back.headI.length
    · rw [if_neg (not_not_intro h1)]
      by_cases h2 : (∀ i ∈ fore, i.length = back.headI.length) ∧
          (∀ i ∈ back, i.length = back.headI.length)
      · rw [if_neg (not_not_intro h2)]
        obtain ⟨tbl, htbl⟩ := calc_scores_ok BASES fore back p prob_fn hpf
        rw [htbl]
        exact iff_of_true ⟨(tbl, calc_hline (back_counts back) p), rfl⟩ ⟨h1, h2.1, h2.2⟩
      · rw [if_pos h2]
        refine iff_of_false ?_ (fun hc => h2 ⟨hc.2.1, hc.2.2⟩)
        rintro ⟨r, hr⟩
        cases hr
    · rw [if_pos h1]
      refine iff_of_false ?_ (fun hc => h1 hc.1)
      rintro ⟨r, hr⟩
      cases hr

/-- Witness for C10: a one-string foreground and two-string background of
width one pass the asserts; the statement also exercises the empty-background
early return. -/
theorem logo_empty_and_asserts_witness :
    logo [['A']] [] (1 / 20) none = .ok none ∧
    ((∃ r, logo [['A']] [['A'], ['C']] (1 / 20) none = .ok (some r)) ↔
      (0 < ([['A'], ['C']] : List (List Char)).headI.length ∧
        (∀ i ∈ ([['A']] : List (List Char)),
          i.length = ([['A'], ['C']] : List (List Char)).headI.length) ∧
        (∀ i ∈ ([['A'], ['C']] : List (List Char)),
          i.length = ([['A'], ['C']] : List (List Char)).headI.length))) :=
  logo_empty_and_asserts [['A']] [['A'], ['C']] (1 / 20) none (by decide) (by decide)
